import Mathlib

set_option maxRecDepth 100000

/-!
Verification of the `python-blockchain` ledger/consensus engine (`Blockchain.py`).

The Python code is shallowly embedded: blocks, transactions and the ledger
state are explicit structures; `json.dumps(block, sort_keys=True)` is the
canonical encoder `jsonBlock`; `hashlib.sha256(...).hexdigest()` is `sha256hex`
(a full executable SHA-256 over naturals); fallible operations return
`Except`/`Option`, with a dedicated error value for each Python exception that
can escape (`ValueError`, `KeyError`, `IndexError`, a `requests` network
error).  The unbounded proof-of-work `while` loop is embedded with explicit
fuel.  External inputs (the `time()` clock, the node's `uuid4` identity, peer
responses and the iteration order of the node set) are parameters.
-/

namespace Blockchain

/-! ### SHA-256 over naturals (bytes are `Nat < 256`, words are `Nat < 2^32`) -/

/-- 2^32, the modulus for 32-bit word arithmetic. -/
def M32 : Nat := 4294967296

/-- Right-rotation of a 32-bit word. -/
def rotr (n x : Nat) : Nat := ((x >>> n) ||| (x <<< (32 - n))) % M32

/-- The 64 SHA-256 round constants (decimal). -/
def sha256K : List Nat :=
  [1116352408, 1899447441, 3049323471, 3921009573, 961987163,
   1508970993, 2453635748, 2870763221, 3624381080, 310598401,
   607225278, 1426881987, 1925078388, 2162078206, 2614888103,
   3248222580, 3835390401, 4022224774, 264347078, 604807628,
   770255983, 1249150122, 1555081692, 1996064986, 2554220882,
   2821834349, 2952996808, 3210313671, 3336571891, 3584528711,
   113926993, 338241895, 666307205, 773529912, 1294757372,
   1396182291, 1695183700, 1986661051, 2177026350, 2456956037,
   2730485921, 2820302411, 3259730800, 3345764771, 3516065817,
   3600352804, 4094571909, 275423344, 430227734, 506948616,
   659060556, 883997877, 958139571, 1322822218, 1537002063,
   1747873779, 1955562222, 2024104815, 2227730452, 2361852424,
   2428436474, 2756734187, 3204031479, 3329325298]

/-- The SHA-256 initial hash state (decimal). -/
def sha256H0 : List Nat :=
  [1779033703, 3144134277, 1013904242, 2773480762,
   1359893119, 2600822924, 528734635, 1541459225]

/-- `k`-byte big-endian rendering of a natural number. -/
def bytesBE (k n : Nat) : List Nat :=
  (List.range k).map (fun i => (n >>> (8 * (k - 1 - i))) % 256)

/-- SHA-256 padding: append `0x80`, zeros up to 56 mod 64, then the 8-byte
big-endian bit length. -/
def sha256Pad (msg : List Nat) : List Nat :=
  let len := msg.length
  let zeros := (64 + 56 - (len % 64) - 1) % 64
  msg ++ [0x80] ++ List.replicate zeros 0 ++ bytesBE 8 (8 * len)

/-- Group bytes 4 at a time into big-endian 32-bit words. -/
def bytesToWords : List Nat → List Nat
  | b0 :: b1 :: b2 :: b3 :: rest =>
      (b0 * 16777216 + b1 * 65536 + b2 * 256 + b3) :: bytesToWords rest
  | _ => []

/-- Split a byte list into 64-byte chunks (fuel-driven so the kernel can
evaluate it; the fuel is the list length, always sufficient). -/
def chunks64Aux : Nat → List Nat → List (List Nat)
  | 0, _ => []
  | _, [] => []
  | n + 1, l => l.take 64 :: chunks64Aux n (l.drop 64)

/-- Split a byte list into 64-byte chunks. -/
def chunks64 (l : List Nat) : List (List Nat) := chunks64Aux l.length l

/-- Extend a 16-word message schedule by `n` further words. -/
def sha256ExtendAux : Nat → List Nat → List Nat
  | 0, w => w
  | n + 1, w =>
      let i := w.length
      let w15 := w.getD (i - 15) 0
      let w2 := w.getD (i - 2) 0
      let s0 := (rotr 7 w15) ^^^ (rotr 18 w15) ^^^ (w15 >>> 3)
      let s1 := (rotr 17 w2) ^^^ (rotr 19 w2) ^^^ (w2 >>> 10)
      sha256ExtendAux n (w ++ [(w.getD (i - 16) 0 + s0 + w.getD (i - 7) 0 + s1) % M32])

/-- One SHA-256 compression round on the 8-word working state. -/
def sha256Round (st : List Nat) (kw : Nat × Nat) : List Nat :=
  match st with
  | [a, b, c, d, e, f, g, h] =>
      let S1 := (rotr 6 e) ^^^ (rotr 11 e) ^^^ (rotr 25 e)
      let ch := (e &&& f) ^^^ ((M32 - 1 - e) &&& g)
      let temp1 := (h + S1 + ch + kw.1 + kw.2) % M32
      let S0 := (rotr 2 a) ^^^ (rotr 13 a) ^^^ (rotr 22 a)
      let maj := (a &&& b) ^^^ (a &&& c) ^^^ (b &&& c)
      let temp2 := (S0 + maj) % M32
      [(temp1 + temp2) % M32, a, b, c, (d + temp1) % M32, e, f, g]
  | _ => st

/-- Compress one 64-byte chunk into the running 8-word hash state. -/
def sha256Compress (h : List Nat) (chunk : List Nat) : List Nat :=
  let w := sha256ExtendAux 48 (bytesToWords chunk)
  let final := (List.zip sha256K w).foldl sha256Round h
  List.zipWith (fun x y => (x + y) % M32) h final

/-- SHA-256 of a byte list, as a 32-byte list. -/
def sha256 (msg : List Nat) : List Nat :=
  let hs := (chunks64 (sha256Pad msg)).foldl sha256Compress sha256H0
  (hs.map (bytesBE 4)).flatten

/-- A lowercase hex digit. -/
def hexChar (n : Nat) : Char :=
  if n < 10 then Char.ofNat (48 + n) else Char.ofNat (87 + n)

/-- Lowercase hex encoding of a byte list. -/
def toHex (bytes : List Nat) : String :=
  String.mk ((bytes.map (fun b => [hexChar (b / 16), hexChar (b % 16)])).flatten)

/-- UTF-8 encoding of one character, as bytes. -/
def utf8Bytes (c : Char) : List Nat :=
  let n := c.toNat
  if n < 0x80 then [n]
  else if n < 0x800 then [0xC0 + n / 64, 0x80 + n % 64]
  else if n < 0x10000 then
    [0xE0 + n / 4096, 0x80 + (n / 64) % 64, 0x80 + n % 64]
  else
    [0xF0 + n / 262144, 0x80 + (n / 4096) % 64, 0x80 + (n / 64) % 64, 0x80 + n % 64]

/-- UTF-8 encoding of a string (Python's `str.encode()`). -/
def strBytes (s : String) : List Nat := (s.toList.map utf8Bytes).flatten

/-- `hashlib.sha256(s.encode()).hexdigest()`. -/
def sha256hex (s : String) : String := toHex (sha256 (strBytes s))

/-! ### Data model

`Transaction` and `Block` are the dict shapes built by `new_transaction` and
`new_block`.  A block's `previous_hash` is either the integer sentinel `1`
(genesis) or a hex hash string, so it is modelled as a sum. The `time()`
timestamp is modelled as an externally supplied natural number tick. -/

/-- A pending or recorded transaction (`new_transaction`'s dict). -/
structure Transaction where
  sender : String
  recipient : String
  amount : Int
  deriving DecidableEq

/-- The `previous_hash` field: the genesis sentinel is the Python int `1`;
every mined block stores a hex digest string. -/
inductive PrevHash where
  | sentinel (n : Nat)
  | hash (s : String)
  deriving DecidableEq

/-- A block (`new_block`'s dict). -/
structure Block where
  index : Nat
  timestamp : Nat
  transactions : List Transaction
  proof : Nat
  previous_hash : PrevHash
  deriving DecidableEq

/-- The mutable state of the `Blockchain` object: the chain, the pending
transaction pool and the registered node set. -/
structure BCState where
  chain : List Block
  currentTransactions : List Transaction
  nodes : Finset String
  deriving DecidableEq

/-! ### Canonical encoder: `json.dumps(block, sort_keys=True)`

Key order is sorted (`amount, recipient, sender` for transactions;
`index, previous_hash, proof, timestamp, transactions` for blocks) and the
default separators are a comma-space and a colon-space. String values are
escaped exactly as Python's `json.dumps` does with its default
`ensure_ascii=True`. -/

/-- Four lowercase hex digits (for a `\u` escape). -/
def hex4 (n : Nat) : String :=
  String.mk [hexChar (n / 4096 % 16), hexChar (n / 256 % 16),
             hexChar (n / 16 % 16), hexChar (n % 16)]

/-- JSON escape of one character, following `json.dumps` with
`ensure_ascii=True`: the two-character shortcuts, `\u00xx` for other control
characters, `\uxxxx` for non-ASCII, and surrogate pairs beyond the BMP. -/
def jsonEscapeChar (c : Char) : String :=
  let n := c.toNat
  if c = '"' then "\\\""
  else if c = '\\' then "\\\\"
  else if n = 8 then "\\b"
  else if n = 9 then "\\t"
  else if n = 10 then "\\n"
  else if n = 12 then "\\f"
  else if n = 13 then "\\r"
  else if n < 32 then "\\u" ++ hex4 n
  else if n < 127 then String.mk [c]
  else if n < 65536 then "\\u" ++ hex4 n
  else
    "\\u" ++ hex4 (55296 + (n - 65536) / 1024) ++ "\\u" ++ hex4 (56320 + (n - 65536) % 1024)

/-- A JSON string literal. -/
def jsonString (s : String) : String :=
  "\"" ++ String.join (s.toList.map jsonEscapeChar) ++ "\""

/-- `json.dumps` of one transaction dict with sorted keys. -/
def jsonTx (t : Transaction) : String :=
  "\x7b\"amount\": " ++ toString t.amount ++
  ", \"recipient\": " ++ jsonString t.recipient ++
  ", \"sender\": " ++ jsonString t.sender ++ "\x7d"

/-- `json.dumps` of the `previous_hash` value: the genesis sentinel renders
as a bare integer, a digest renders as a quoted string. -/
def jsonPrev : PrevHash → String
  | .sentinel n => toString n
  | .hash s => jsonString s

/-- `json.dumps(block, sort_keys=True)`. -/
def jsonBlock (b : Block) : String :=
  "\x7b\"index\": " ++ toString b.index ++
  ", \"previous_hash\": " ++ jsonPrev b.previous_hash ++
  ", \"proof\": " ++ toString b.proof ++
  ", \"timestamp\": " ++ toString b.timestamp ++
  ", \"transactions\": [" ++ String.intercalate ", " (b.transactions.map jsonTx) ++ "]\x7d"

/-- `Blockchain.hash`: SHA-256 of the canonical JSON encoding, hex-encoded. -/
def hashB (b : Block) : String := sha256hex (jsonBlock b)

/-! ### Ledger operations -/

/-- Python truthiness of a `previous_hash` value (`previous_hash or ...` in
`new_block`): the int `0` and the empty string are falsy. -/
def truthyPrev : PrevHash → Bool
  | .sentinel n => n != 0
  | .hash s => s != ""

/-- `Blockchain.new_block`: build the block dict, reset the pool, append.
The `previous_hash or self.hash(self.chain[-1])` fallback is only taken for a
falsy argument (never at either call site); on an empty chain that fallback
would raise `IndexError` in Python — that unreachable arm is modelled as
returning the argument unchanged. -/
def new_block (s : BCState) (proof : Nat) (previous_hash : PrevHash) (t : Nat) :
    Block × BCState :=
  let prev := if truthyPrev previous_hash then previous_hash
    else match s.chain.getLast? with
      | some b => PrevHash.hash (hashB b)
      | none => previous_hash
  let block : Block :=
    { index := s.chain.length + 1, timestamp := t,
      transactions := s.currentTransactions, proof := proof, previous_hash := prev }
  (block, { s with currentTransactions := [], chain := s.chain ++ [block] })

/-- `Blockchain.__init__`: empty chain, empty pool, empty node set, then the
genesis block via `new_block(previous_hash=1, proof=100)` at clock tick `t`. -/
def initial (t : Nat) : BCState :=
  (new_block { chain := [], currentTransactions := [], nodes := ∅ } 100 (.sentinel 1) t).2

/-- `Blockchain.new_transaction`: append the transaction to the pool and
return `last_block.index + 1` (`none` models the `IndexError` that
`self.last_block` raises on an empty chain, after the pool was mutated). -/
def new_transaction (s : BCState) (sender recipient : String) (amount : Int) :
    Option Nat × BCState :=
  let s1 := { s with currentTransactions :=
      s.currentTransactions ++ [{ sender := sender, recipient := recipient, amount := amount }] }
  (s.chain.getLast?.map (fun b => b.index + 1), s1)

/-- `Blockchain.valid_proof`: SHA-256 the concatenation of the decimal
renderings of the two proofs and the previous hash, and require the first 4
hex characters of the digest to be zero. -/
def valid_proof (last_proof proof : Nat) (last_hash : String) : Bool :=
  let guess_hash := sha256hex (toString last_proof ++ toString proof ++ last_hash)
  guess_hash.take 4 == "0000"

/-- The `while` loop of `Blockchain.proof_of_work`, with explicit fuel:
try `proof, proof+1, ...` until `valid_proof` succeeds (`none` = fuel ran
out, i.e. the unbounded Python search has not yet terminated). -/
def powSearch : Nat → Nat → Nat → String → Option Nat
  | 0, _, _, _ => none
  | fuel + 1, proof, last_proof, last_hash =>
      if valid_proof last_proof proof last_hash then some proof
      else powSearch fuel (proof + 1) last_proof last_hash

/-- `Blockchain.proof_of_work`: search from 0 against the previous block's
proof and hash. -/
def proof_of_work (fuel : Nat) (last_block : Block) : Option Nat :=
  powSearch fuel 0 last_block.proof (hashB last_block)

/-- Python `==` between a `previous_hash` field value and a hash string:
an int never equals a str. -/
def prevHashEqStr : PrevHash → String → Bool
  | .sentinel _, _ => false
  | .hash s, t => s == t

/-- The validation walk of `Blockchain.valid_chain` over the blocks after
the head, carrying the previous block. -/
def valid_chainAux (last_block : Block) : List Block → Bool
  | [] => true
  | block :: rest =>
      let last_block_hash := hashB last_block
      if !(prevHashEqStr block.previous_hash last_block_hash) then false
      else if !(valid_proof last_block.proof block.proof last_block_hash) then false
      else valid_chainAux block rest

/-- `Blockchain.valid_chain`: reads `chain[0]` before any length check, so an
empty chain raises `IndexError` (modelled as `none`). -/
def valid_chain : List Block → Option Bool
  | [] => none
  | b :: rest => some (valid_chainAux b rest)

/-! ### Node registry (`register_node` / `deregister_node`)

The address normalization models `urllib.parse.urlparse` (CPython 3.x
`urlsplit` plus the params split) restricted to the two fields the code
reads: `netloc` and `path`. -/

/-- Exceptions escaping the registry: `ValueError('Invalid URL')` for a
malformed address, `KeyError` from `set.remove` on a missing element. -/
inductive RegErr where
  | valueError
  | keyError
  deriving DecidableEq

/-- The `netloc` and `path` components of a parsed URL. -/
structure ParseResult where
  netloc : String
  path : String
  deriving DecidableEq

/-- Characters allowed in a URL scheme (letters, digits, `+`, `-`, `.`). -/
def schemeChar (c : Char) : Bool :=
  c.isAlpha || c.isDigit || c == '+' || c == '-' || c == '.'

/-- Drop a leading `scheme:` if the text before the first colon starts with
an ASCII letter and consists of scheme characters (CPython `urlsplit`). -/
def splitScheme (url : List Char) : List Char :=
  match url.findIdx? (fun c => c == ':') with
  | some i =>
      if 0 < i then
        if (url.headD ' ').isAlpha && (url.take i).all schemeChar then url.drop (i + 1)
        else url
      else url
  | none => url

/-- After the scheme, a leading `//` introduces the netloc, which extends to
the first `/`, `?` or `#`.  Returns `(netloc, remainder)`. -/
def splitNetloc (url : List Char) : List Char × List Char :=
  match url with
  | '/' :: '/' :: rest =>
      let n := rest.takeWhile (fun c => !(c == '/' || c == '?' || c == '#'))
      (n, rest.drop n.length)
  | _ => ([], url)

/-- Split off the final `/`-separated segment: `(head including the last
slash, final segment)`. -/
def splitLastSeg (url : List Char) : List Char × List Char :=
  let seg := (url.reverse.takeWhile (fun c => c != '/')).reverse
  (url.take (url.length - seg.length), seg)

/-- `urlparse`'s params split: a `;` in the last path segment starts the
params, which are dropped from `path`. -/
def splitParams (url : List Char) : List Char :=
  if url.contains ';' then
    if url.contains '/' then
      let p := splitLastSeg url
      if p.2.contains ';' then p.1 ++ p.2.takeWhile (fun c => c != ';') else url
    else url.takeWhile (fun c => c != ';')
  else url

/-- `urllib.parse.urlparse`, restricted to the `netloc` and `path` fields:
strip the scheme, extract a `//`-netloc, strip fragment and query from the
path, split params. -/
def urlparse (address : String) : ParseResult :=
  let rest := splitScheme address.toList
  let nl := splitNetloc rest
  let path := splitParams ((nl.2.takeWhile (fun c => c != '#')).takeWhile (fun c => c != '?'))
  { netloc := String.mk nl.1, path := String.mk path }

/-- The normalized form an address contributes to the node set: the netloc
if nonempty, else the path if nonempty, else `none` (malformed). -/
def normalize (address : String) : Option String :=
  let p := urlparse address
  if p.netloc != "" then some p.netloc
  else if p.path != "" then some p.path
  else none

/-- `Blockchain.register_node`: insert the netloc, else the path, else raise
`ValueError('Invalid URL')`. -/
def register_node (s : BCState) (address : String) : Except RegErr BCState :=
  let p := urlparse address
  if p.netloc != "" then .ok { s with nodes := insert p.netloc s.nodes }
  else if p.path != "" then .ok { s with nodes := insert p.path s.nodes }
  else .error .valueError

/-- `Blockchain.deregister_node`: an empty node set returns immediately
(before the address is even parsed); otherwise `set.remove` the netloc or
path — raising `KeyError` when it is not a member — else raise
`ValueError('Invalid URL')`. -/
def deregister_node (s : BCState) (address : String) : Except RegErr BCState :=
  if s.nodes = ∅ then .ok s
  else
    let p := urlparse address
    if p.netloc != "" then
      if p.netloc ∈ s.nodes then .ok { s with nodes := s.nodes.erase p.netloc }
      else .error .keyError
    else if p.path != "" then
      if p.path ∈ s.nodes then .ok { s with nodes := s.nodes.erase p.path }
      else .error .keyError
    else .error .valueError

/-! ### Consensus resolution (`resolve_conflicts`) -/

/-- What `requests.get(http://node/chain)` can produce: a raised network
error, or a response carrying an HTTP status and the peer's reported
`length` and `chain` JSON fields. -/
inductive FetchResult where
  | netError
  | response (status : Nat) (length : Int) (chain : List Block)

/-- Exceptions escaping `resolve_conflicts`: the network error raised by
`requests.get` (no handler in the code), and the `IndexError` raised by
`valid_chain` on an empty candidate chain. -/
inductive PyErr where
  | netError
  | indexError
  deriving DecidableEq

/-- The peer loop of `resolve_conflicts`: `maxLen` starts at the local chain
length, non-200 responses are skipped, a reported length greater than
`maxLen` triggers validation, and a valid longer candidate becomes the new
best.  A network error or an empty candidate chain raises. -/
def resolveAux (fetch : String → FetchResult) :
    List String → Int → Option (List Block) → Except PyErr (Option (List Block))
  | [], _, best => .ok best
  | node :: rest, maxLen, best =>
      match fetch node with
      | .netError => .error .netError
      | .response status length chain =>
          if status == 200 then
            if maxLen < length then
              match valid_chain chain with
              | none => .error .indexError
              | some v =>
                  if v then resolveAux fetch rest length (some chain)
                  else resolveAux fetch rest maxLen best
            else resolveAux fetch rest maxLen best
          else resolveAux fetch rest maxLen best

/-- `Blockchain.resolve_conflicts`: iterate over the node set — Python set
iteration order is arbitrary, so the model takes the iteration order
`peers` (an enumeration of `self.nodes`) as an explicit parameter — then
replace the chain iff a best candidate was recorded (`if new_chain:` —
Python truthiness, so an empty best list would not replace, though that arm
is unreachable). -/
def resolve_conflicts (fetch : String → FetchResult) (peers : List String) (s : BCState) :
    Except PyErr (Bool × BCState) :=
  match resolveAux fetch peers (s.chain.length : Int) none with
  | .error e => .error e
  | .ok none => .ok (false, s)
  | .ok (some c) =>
      if c.isEmpty then .ok (false, s)
      else .ok (true, { s with chain := c })

/-! ### Mining (the `/mine` route) -/

/-- The `mine` route: proof-of-work on the last block, award the reward
transaction (`sender "0"`, recipient the node identifier, amount 1), then
forge the block with `previous_hash = hash(last_block)`.  `fuel` bounds the
unbounded search; `t` is the clock tick for the new block; `nid` is the
node's `uuid4` identity.  `none` models a crash (empty chain) or the search
still running. -/
def mine (fuel t : Nat) (nid : String) (s : BCState) : Option (Block × BCState) :=
  match s.chain.getLast? with
  | none => none
  | some last_block =>
      match proof_of_work fuel last_block with
      | none => none
      | some proof =>
          let s1 := (new_transaction s "0" nid 1).2
          let previous_hash := hashB last_block
          some (new_block s1 proof (.hash previous_hash) t)

/-- Ledger states reachable from a freshly initialized ledger solely through
completed `mine` operations (arbitrary clock ticks and fuel). -/
inductive Reachable (nid : String) : BCState → Prop
  | init (t : Nat) : Reachable nid (initial t)
  | step (s s' : BCState) (b : Block) (fuel t : Nat) :
      Reachable nid s → mine fuel t nid s = some (b, s') → Reachable nid s'

/-- The per-pair check of the chain validator: the stored `previous_hash`
matches the recomputed hash of the previous block, and the proof-of-work
predicate holds for the two proofs against that hash. -/
def pairOK (prev cur : Block) : Bool :=
  prevHashEqStr cur.previous_hash (hashB prev) && valid_proof prev.proof cur.proof (hashB prev)

/-! ### Concrete states for closed instances

Clock tick 7976 makes the fresh ledger's genesis hash admit the tiny
proof-of-work solution 1, keeping kernel evaluation of a concrete completed
`mine` cheap. -/

/-- The genesis block of `initial 7976`. -/
def genesisBlock : Block :=
  { index := 1, timestamp := 7976, transactions := [], proof := 100,
    previous_hash := .sentinel 1 }

/-- A concrete completed `mine` on the fresh ledger `initial 7976`. -/
def wMine1 : Option (Block × BCState) := mine 2 0 "miner" (initial 7976)

/-- The block mined by `wMine1`. -/
def w1Block : Block := (wMine1.getD (genesisBlock, initial 7976)).1

/-- The ledger state after `wMine1`. -/
def w1State : BCState := (wMine1.getD (genesisBlock, initial 7976)).2

/-- The fresh ledger after submitting the alice-to-bob transaction. -/
def sAlice : BCState := (new_transaction (initial 7976) "alice" "bob" 5).2

/-- A concrete completed `mine` on `sAlice`. -/
def wMine2 : Option (Block × BCState) := mine 2 0 "miner" sAlice

/-- The block mined by `wMine2`. -/
def w2Block : Block := (wMine2.getD (genesisBlock, sAlice)).1

/-- The ledger state after `wMine2`. -/
def w2State : BCState := (wMine2.getD (genesisBlock, sAlice)).2

/-- The hash of the genesis block of `initial 7976`: the concrete SHA-256
digest of its canonical JSON encoding. -/
def h0hex : String := "fe9086cfb2b9db7e03fd0a8be317d02945b7742a4b10d36213658d86f4f86fb8"

/-- An arbitrary single block (every single-block chain passes the
validator). -/
def cexBlock : Block :=
  { index := 1, timestamp := 0, transactions := [], proof := 100,
    previous_hash := .sentinel 1 }

/-- A fresh ledger knowing one peer. -/
def peerState : BCState := { initial 0 with nodes := {"peer"} }

/-- A registry state with no nodes. -/
def emptyNodesState : BCState := { chain := [], currentTransactions := [], nodes := ∅ }

/-- A registry state whose node set is exactly `a:1`. -/
def oneNodeState : BCState := { chain := [], currentTransactions := [], nodes := {"a:1"} }

/-- A registry state whose node set is exactly `b:2`. -/
def bNodeState : BCState := { chain := [], currentTransactions := [], nodes := {"b:2"} }

/-! ### Auxiliary lemmas -/

theorem option_getD_eq {α : Type} (o : Option α) (d : α) (h : o.isSome = true) :
    o = some (o.getD d) := by
  cases o with
  | none => simp at h
  | some a => rfl

theorem sha256Round_length (st : List Nat) (kw : Nat × Nat) :
    (sha256Round st kw).length = st.length := by
  unfold sha256Round
  split
  · simp_all
  · rfl

theorem foldl_sha256Round_length (l : List (Nat × Nat)) (h : List Nat) :
    (l.foldl sha256Round h).length = h.length := by
  induction l generalizing h with
  | nil => rfl
  | cons a l ih => rw [List.foldl_cons, ih, sha256Round_length]

theorem sha256Compress_length (h c : List Nat) :
    (sha256Compress h c).length = h.length := by
  simp [sha256Compress, foldl_sha256Round_length]

theorem foldl_sha256Compress_length (l : List (List Nat)) (h : List Nat) :
    (l.foldl sha256Compress h).length = h.length := by
  induction l generalizing h with
  | nil => rfl
  | cons a l ih => rw [List.foldl_cons, ih, sha256Compress_length]

theorem sha256_ne_nil (msg : List Nat) : sha256 msg ≠ [] := by
  unfold sha256
  intro h
  have h8 : ((chunks64 (sha256Pad msg)).foldl sha256Compress sha256H0).length = 8 :=
    foldl_sha256Compress_length _ _
  rcases hc : (chunks64 (sha256Pad msg)).foldl sha256Compress sha256H0 with _ | ⟨w, ws⟩
  · rw [hc] at h8; simp at h8
  · rw [hc] at h
    simp [bytesBE, List.range_succ_eq_map] at h

theorem toHex_ne_empty (l : List Nat) (hl : l ≠ []) : toHex l ≠ "" := by
  rcases l with _ | ⟨b, rest⟩
  · exact absurd rfl hl
  · intro h
    have := congrArg String.data h
    simp [toHex] at this

theorem sha256hex_ne_empty (s : String) : sha256hex s ≠ "" :=
  toHex_ne_empty _ (sha256_ne_nil _)

theorem hashB_ne_empty (b : Block) : hashB b ≠ "" := sha256hex_ne_empty _

theorem truthyPrev_hashB (b : Block) : truthyPrev (.hash (hashB b)) = true := by
  simp [truthyPrev, hashB_ne_empty b]

/-- What a completed `mine` does to the chain: it appends exactly one block,
whose `previous_hash` is the hash of the previous last block and whose index
continues the chain. -/
theorem mine_chain (s : BCState) (fuel t : Nat) (nid : String) (b : Block) (s' : BCState)
    (h : mine fuel t nid s = some (b, s')) :
    ∃ lb, s.chain.getLast? = some lb ∧ s'.chain = s.chain ++ [b] ∧
      b.previous_hash = PrevHash.hash (hashB lb) ∧ b.index = s.chain.length + 1 := by
  unfold mine at h
  rcases hl : s.chain.getLast? with _ | lb <;> rw [hl] at h <;> dsimp only at h
  · exact absurd h (by simp)
  · rcases hp : proof_of_work fuel lb with _ | p <;> rw [hp] at h <;> dsimp only at h
    · exact absurd h (by simp)
    · rw [Option.some_inj, Prod.ext_iff] at h
      obtain ⟨hb, hs⟩ := h
      dsimp only at hb hs
      subst hb
      subst hs
      refine ⟨lb, rfl, ?_, ?_, ?_⟩ <;> simp [new_block, new_transaction, truthyPrev_hashB]

/-- C7: after `mine` completes, the transaction pool is empty and the new
block's transaction list is exactly the pool as it stood immediately before
block creation, in pool-insertion order: the pre-call pool followed by the
reward transaction `sender "0", recipient = the node identifier, amount 1`
that mining appends just before draining. -/
theorem pool_drain (s : BCState) (fuel t : Nat) (nid : String) (b : Block)
    (s' : BCState) (h : mine fuel t nid s = some (b, s')) :
    s'.currentTransactions = [] ∧
    b.transactions =
      s.currentTransactions ++ [{ sender := "0", recipient := nid, amount := 1 }] := by
  unfold mine at h
  rcases hl : s.chain.getLast? with _ | lb <;> rw [hl] at h <;> dsimp only at h
  · exact absurd h (by simp)
  · rcases hp : proof_of_work fuel lb with _ | p <;> rw [hp] at h <;> dsimp only at h
    · exact absurd h (by simp)
    · rw [Option.some_inj, Prod.ext_iff] at h
      obtain ⟨hb, hs⟩ := h
      dsimp only at hb hs
      subst hb
      subst hs
      constructor <;> simp [new_block, new_transaction]

theorem powSearch_sound (fuel : Nat) : ∀ (start a : Nat) (s : String) (p : Nat),
    powSearch fuel start a s = some p →
    start ≤ p ∧ p < start + fuel ∧ valid_proof a p s = true ∧
      ∀ q, start ≤ q → q < p → valid_proof a q s = false := by
  induction fuel with
  | zero => intro start a s p h; simp [powSearch] at h
  | succ n ih =>
      intro start a s p h
      rw [powSearch] at h
      by_cases hv : valid_proof a start s = true
      · rw [if_pos hv, Option.some_inj] at h
        subst h
        exact ⟨Nat.le_refl _, by omega, hv, fun q h1 h2 => by omega⟩
      · rw [if_neg hv] at h
        obtain ⟨h1, h2, h3, h4⟩ := ih (start + 1) a s p h
        refine ⟨by omega, by omega, h3, fun q hq1 hq2 => ?_⟩
        rcases Nat.eq_or_lt_of_le hq1 with hq | hq
        · subst hq; exact Bool.eq_false_iff.mpr hv
        · exact h4 q hq hq2

theorem powSearch_complete (fuel : Nat) : ∀ (start a : Nat) (s : String) (p0 : Nat),
    valid_proof a p0 s = true → start ≤ p0 → p0 < start + fuel →
    ∃ p, powSearch fuel start a s = some p := by
  induction fuel with
  | zero => intro start a s p0 _ _ _; omega
  | succ n ih =>
      intro start a s p0 hp hle hlt
      rw [powSearch]
      by_cases hv : valid_proof a start s = true
      · exact ⟨start, by rw [if_pos hv]⟩
      · rw [if_neg hv]
        have hne : start ≠ p0 := fun he => hv (he ▸ hp)
        exact ih (start + 1) a s p0 hp (by omega) (by omega)

theorem valid_chainAux_cons (last b : Block) (rest : List Block) :
    valid_chainAux last (b :: rest) = (pairOK last b && valid_chainAux b rest) := by
  simp only [valid_chainAux, pairOK]
  cases h1 : prevHashEqStr b.previous_hash (hashB last) <;>
    cases h2 : valid_proof last.proof b.proof (hashB last) <;> simp [h1, h2]

theorem valid_chainAux_eq_chain (l : List Block) : ∀ last : Block,
    (valid_chainAux last l = true ↔ List.Chain (fun p c => pairOK p c = true) last l) := by
  induction l with
  | nil => intro last; simp [valid_chainAux]
  | cons b rest ih =>
      intro last
      rw [valid_chainAux_cons, List.chain_cons, Bool.and_eq_true, ih b]

theorem register_node_eq (s : BCState) (a v : String) (h : normalize a = some v) :
    register_node s a = .ok { s with nodes := insert v s.nodes } := by
  unfold normalize at h
  unfold register_node
  by_cases h1 : (urlparse a).netloc = ""
  · rw [if_neg (by simp [h1])] at h ⊢
    by_cases h2 : (urlparse a).path = ""
    · rw [if_neg (by simp [h2])] at h; exact absurd h (by simp)
    · rw [if_pos (by simp [h2])] at h ⊢
      rw [Option.some_inj] at h
      rw [h]
  · rw [if_pos (by simp [h1])] at h ⊢
    rw [Option.some_inj] at h
    rw [h]

theorem register_node_malformed (s : BCState) (a : String) (h : normalize a = none) :
    register_node s a = .error .valueError := by
  unfold normalize at h
  unfold register_node
  by_cases h1 : (urlparse a).netloc = ""
  · rw [if_neg (by simp [h1])] at h ⊢
    by_cases h2 : (urlparse a).path = ""
    · rw [if_neg (by simp [h2])]
    · rw [if_pos (by simp [h2])] at h; exact absurd h (by simp)
  · rw [if_pos (by simp [h1])] at h; exact absurd h (by simp)

theorem deregister_node_empty (s : BCState) (a : String) (h : s.nodes = ∅) :
    deregister_node s a = .ok s := by
  unfold deregister_node
  rw [if_pos h]

theorem deregister_node_member (s : BCState) (a v : String) (hne : s.nodes ≠ ∅)
    (hv : normalize a = some v) (hm : v ∈ s.nodes) :
    deregister_node s a = .ok { s with nodes := s.nodes.erase v } := by
  unfold normalize at hv
  unfold deregister_node
  rw [if_neg hne]
  by_cases h1 : (urlparse a).netloc = ""
  · rw [if_neg (by simp [h1])] at hv ⊢
    by_cases h2 : (urlparse a).path = ""
    · rw [if_neg (by simp [h2])] at hv; exact absurd hv (by simp)
    · rw [if_pos (by simp [h2])] at hv ⊢
      rw [Option.some_inj] at hv
      rw [hv, if_pos hm]
  · rw [if_pos (by simp [h1])] at hv ⊢
    rw [Option.some_inj] at hv
    rw [hv, if_pos hm]

theorem deregister_node_nonmember (s : BCState) (a v : String) (hne : s.nodes ≠ ∅)
    (hv : normalize a = some v) (hm : v ∉ s.nodes) :
    deregister_node s a = .error .keyError := by
  unfold normalize at hv
  unfold deregister_node
  rw [if_neg hne]
  by_cases h1 : (urlparse a).netloc = ""
  · rw [if_neg (by simp [h1])] at hv ⊢
    by_cases h2 : (urlparse a).path = ""
    · rw [if_neg (by simp [h2])] at hv; exact absurd hv (by simp)
    · rw [if_pos (by simp [h2])] at hv ⊢
      rw [Option.some_inj] at hv
      rw [hv, if_neg hm]
  · rw [if_pos (by simp [h1])] at hv ⊢
    rw [Option.some_inj] at hv
    rw [hv, if_neg hm]

theorem deregister_node_malformed (s : BCState) (a : String) (hne : s.nodes ≠ ∅)
    (h : normalize a = none) : deregister_node s a = .error .valueError := by
  unfold normalize at h
  unfold deregister_node
  rw [if_neg hne]
  by_cases h1 : (urlparse a).netloc = ""
  · rw [if_neg (by simp [h1])] at h ⊢
    by_cases h2 : (urlparse a).path = ""
    · rw [if_neg (by simp [h2])]
    · rw [if_pos (by simp [h2])] at h; exact absurd h (by simp)
  · rw [if_pos (by simp [h1])] at h; exact absurd h (by simp)

/-! ### Resolution loop lemmas -/

/-- A peer qualifies for replacement against local length `L`: its fetch
succeeds with status 200, a reported length above `L`, and a chain the
validator accepts. -/
def qualifies (fetch : String → FetchResult) (L : Int) (n : String) : Prop :=
  ∃ ln ch, fetch n = .response 200 ln ch ∧ L < ln ∧ valid_chain ch = some true

/-- Every fetch in the list returns a response bearing a non-empty chain
(no network exception, no empty candidate block list — either would make
`resolve_conflicts` raise, see the error-handling results). -/
def goodFetch (fetch : String → FetchResult) (ns : List String) : Prop :=
  ∀ n ∈ ns, ∃ st ln ch, fetch n = .response st ln ch ∧ ch ≠ []

theorem resolveAux_ok_of_good (fetch : String → FetchResult) (l : List String)
    (hg : goodFetch fetch l) : ∀ (maxLen : Int) (best : Option (List Block)),
    ∃ r, resolveAux fetch l maxLen best = .ok r := by
  induction l with
  | nil => exact fun maxLen best => ⟨best, rfl⟩
  | cons n rest ih =>
      intro maxLen best
      obtain ⟨st, ln, ch, hf, hch⟩ := hg n (List.mem_cons_self n rest)
      have hg' : goodFetch fetch rest := fun m hm => hg m (List.mem_cons_of_mem n hm)
      rw [resolveAux, hf]
      dsimp only
      by_cases hst : (st == 200) = true
      · rw [if_pos hst]
        by_cases hln : maxLen < ln
        · rw [if_pos hln]
          obtain ⟨c0, cr, rfl⟩ := List.exists_cons_of_ne_nil hch
          rw [valid_chain]
          dsimp only
          by_cases hv : valid_chainAux c0 cr = true
          · rw [hv, if_pos rfl]
            exact ih hg' ln (some (c0 :: cr))
          · rw [Bool.not_eq_true] at hv
            rw [hv, if_neg (by simp)]
            exact ih hg' maxLen best
        · rw [if_neg hln]
          exact ih hg' maxLen best
      · rw [if_neg hst]
        exact ih hg' maxLen best

theorem resolveAux_isSome_of_best (fetch : String → FetchResult) (l : List String) :
    ∀ (maxLen : Int) (c : List Block) (r : Option (List Block)),
    resolveAux fetch l maxLen (some c) = .ok r → r.isSome = true := by
  induction l with
  | nil =>
      intro maxLen c r h
      rw [resolveAux, Except.ok.injEq] at h
      subst h
      rfl
  | cons n rest ih =>
      intro maxLen c r h
      rw [resolveAux] at h
      rcases hf : fetch n with _ | ⟨st, ln, ch⟩ <;> rw [hf] at h
      · exact absurd h (by simp)
      · dsimp only at h
        by_cases hst : (st == 200) = true
        · rw [if_pos hst] at h
          by_cases hln : maxLen < ln
          · rw [if_pos hln] at h
            rcases hc : valid_chain ch with _ | v <;> rw [hc] at h <;> dsimp only at h
            · exact absurd h (by simp)
            · by_cases hv : v = true
              · rw [if_pos hv] at h; exact ih ln ch r h
              · rw [if_neg hv] at h; exact ih maxLen c r h
          · rw [if_neg hln] at h; exact ih maxLen c r h
        · rw [if_neg hst] at h; exact ih maxLen c r h

theorem valid_chain_cons (b : Block) (rest : List Block) :
    valid_chain (b :: rest) = some (valid_chainAux b rest) := rfl

theorem resolveAux_none_of_no_qual (fetch : String → FetchResult) (l : List String)
    (L : Int) (hg : goodFetch fetch l) (hq : ∀ n ∈ l, ¬ qualifies fetch L n) :
    resolveAux fetch l L none = .ok none := by
  induction l with
  | nil => rfl
  | cons n rest ih =>
      obtain ⟨st, ln, ch, hf, hch⟩ := hg n (List.mem_cons_self n rest)
      have hg' : goodFetch fetch rest := fun m hm => hg m (List.mem_cons_of_mem n hm)
      have hq' : ∀ m ∈ rest, ¬ qualifies fetch L m :=
        fun m hm => hq m (List.mem_cons_of_mem n hm)
      rw [resolveAux, hf]
      dsimp only
      by_cases hst : st = 200
      · subst hst
        rw [if_pos (show (200 == 200) = true from rfl)]
        by_cases hln : L < ln
        · rw [if_pos hln]
          obtain ⟨c0, cr, rfl⟩ := List.exists_cons_of_ne_nil hch
          rw [valid_chain_cons]
          dsimp only
          by_cases hv : valid_chainAux c0 cr = true
          · exact absurd ⟨ln, c0 :: cr, hf, hln, by rw [valid_chain_cons, hv]⟩
              (hq n (List.mem_cons_self n rest))
          · rw [Bool.not_eq_true] at hv
            rw [hv, if_neg (by simp)]
            exact ih hg' hq'
        · rw [if_neg hln]
          exact ih hg' hq'
      · rw [if_neg (by simp [hst])]
        exact ih hg' hq'

theorem resolveAux_some_of_qual (fetch : String → FetchResult) (l : List String)
    (L : Int) (hg : goodFetch fetch l) (hq : ∃ n ∈ l, qualifies fetch L n) :
    ∃ c, resolveAux fetch l L none = .ok (some c) := by
  induction l with
  | nil =>
      obtain ⟨n, hn, _⟩ := hq
      exact absurd hn (List.not_mem_nil n)
  | cons n rest ih =>
      have hg' : goodFetch fetch rest := fun m hm => hg m (List.mem_cons_of_mem n hm)
      by_cases hqn : qualifies fetch L n
      · obtain ⟨ln, ch, hf, hln, hv⟩ := hqn
        rw [resolveAux, hf]
        dsimp only
        rw [if_pos (show (200 == 200) = true from rfl), if_pos hln, hv]
        dsimp only
        rw [if_pos (show true = true from rfl)]
        obtain ⟨r, hr⟩ := resolveAux_ok_of_good fetch rest hg' ln (some ch)
        have hsome := resolveAux_isSome_of_best fetch rest ln ch r hr
        obtain ⟨c, rfl⟩ := Option.isSome_iff_exists.mp hsome
        exact ⟨c, hr⟩
      · obtain ⟨m, hm, hqm⟩ := hq
        rcases List.mem_cons.mp hm with rfl | hm'
        · exact absurd hqm hqn
        · obtain ⟨st, ln, ch, hf, hch⟩ := hg n (List.mem_cons_self n rest)
          rw [resolveAux, hf]
          dsimp only
          by_cases hst : st = 200
          · subst hst
            rw [if_pos (show (200 == 200) = true from rfl)]
            by_cases hln : L < ln
            · rw [if_pos hln]
              obtain ⟨c0, cr, rfl⟩ := List.exists_cons_of_ne_nil hch
              rw [valid_chain_cons]
              dsimp only
              by_cases hv : valid_chainAux c0 cr = true
              · exact absurd ⟨ln, c0 :: cr, hf, hln, by rw [valid_chain_cons, hv]⟩ hqn
              · rw [Bool.not_eq_true] at hv
                rw [hv, if_neg (by simp)]
                exact ih hg' ⟨m, hm', hqm⟩
            · rw [if_neg hln]
              exact ih hg' ⟨m, hm', hqm⟩
          · rw [if_neg (by simp [hst])]
            exact ih hg' ⟨m, hm', hqm⟩

theorem resolveAux_some_origin (fetch : String → FetchResult) (l : List String) (L : Int) :
    ∀ (maxLen : Int) (best : Option (List Block)) (c : List Block), L ≤ maxLen →
    resolveAux fetch l maxLen best = .ok (some c) →
    best = some c ∨ ∃ n ∈ l, ∃ ln, fetch n = .response 200 ln c ∧ L < ln ∧
      valid_chain c = some true := by
  induction l with
  | nil =>
      intro maxLen best c _ h
      rw [resolveAux, Except.ok.injEq] at h
      exact Or.inl h
  | cons n rest ih =>
      intro maxLen best c hL h
      rw [resolveAux] at h
      rcases hf : fetch n with _ | ⟨st, ln, ch⟩ <;> rw [hf] at h <;> dsimp only at h
      · exact absurd h (by simp)
      · by_cases hst : st = 200
        · subst hst
          rw [if_pos (show (200 == 200) = true from rfl)] at h
          by_cases hln : maxLen < ln
          · rw [if_pos hln] at h
            rcases hc : valid_chain ch with _ | v <;> rw [hc] at h <;> dsimp only at h
            · exact absurd h (by simp)
            · by_cases hv : v = true
              · rw [if_pos hv] at h
                subst hv
                rcases ih ln (some ch) c (by omega) h with heq | ⟨m, hm, w⟩
                · rw [Option.some_inj] at heq
                  subst heq
                  exact Or.inr ⟨n, List.mem_cons_self n rest, ln, hf, by omega, hc⟩
                · exact Or.inr ⟨m, List.mem_cons_of_mem n hm, w⟩
              · rw [if_neg hv] at h
                rcases ih maxLen best c hL h with heq | ⟨m, hm, w⟩
                · exact Or.inl heq
                · exact Or.inr ⟨m, List.mem_cons_of_mem n hm, w⟩
          · rw [if_neg hln] at h
            rcases ih maxLen best c hL h with heq | ⟨m, hm, w⟩
            · exact Or.inl heq
            · exact Or.inr ⟨m, List.mem_cons_of_mem n hm, w⟩
        · rw [if_neg (by simp [hst])] at h
          rcases ih maxLen best c hL h with heq | ⟨m, hm, w⟩
          · exact Or.inl heq
          · exact Or.inr ⟨m, List.mem_cons_of_mem n hm, w⟩

/-! ### Claim results -/

/-- C8: a freshly initialized ledger has a chain of length exactly 1, whose
single block — the genesis block — has index 1, proof 100 and
`previous_hash` equal to the fixed sentinel (the Python int `1`). -/
theorem genesis_spec (t : Nat) :
    (initial t).chain.length = 1 ∧
    ∃ g : Block, (initial t).chain = [g] ∧ g.index = 1 ∧ g.proof = 100 ∧
      g.previous_hash = PrevHash.sentinel 1 :=
  ⟨rfl, ⟨_, rfl, rfl, rfl, rfl⟩⟩

/-- C6: for every chain of length at least 1 the validator walks adjacent
(previous, current) pairs in order — `previous_hash` must match the
recomputed hash and the proof-of-work predicate must hold — returning true
exactly when all pairs pass (in particular every single-block chain is
valid), false as soon as one pair fails (the walk short-circuits through
`&&`, ignoring everything after the first failing pair). -/
theorem valid_chain_walk :
    (∀ b : Block, valid_chain [b] = some true) ∧
    (∀ (b : Block) (rest : List Block),
      (valid_chain (b :: rest) = some true ↔
        List.Chain (fun p c => pairOK p c = true) b rest) ∧
      (valid_chain (b :: rest) = some false ↔
        ¬ List.Chain (fun p c => pairOK p c = true) b rest)) ∧
    (∀ (last b : Block) (rest : List Block),
      valid_chainAux last (b :: rest) = (pairOK last b && valid_chainAux b rest)) := by
  refine ⟨fun b => rfl, fun b rest => ⟨?_, ?_⟩, valid_chainAux_cons⟩
  · rw [valid_chain_cons, Option.some_inj]
    exact valid_chainAux_eq_chain rest b
  · rw [valid_chain_cons, Option.some_inj, ← valid_chainAux_eq_chain rest b]
    cases valid_chainAux b rest <;> simp

/-- C5: whenever some proof satisfies the predicate, the proof-of-work
search (starting at 0 and counting up) returns the smallest non-negative
integer `p` with `valid_proof a p h = true` — the predicate that SHA-256 of
the decimal renderings of both proofs concatenated with the previous hash
has `0000` as its first four hex characters — and it returns the same `p`
for every sufficient fuel. -/
theorem pow_minimality (a p0 : Nat) (s : String) (hp : valid_proof a p0 s = true) :
    ∃ p, powSearch (p0 + 1) 0 a s = some p ∧ valid_proof a p s = true ∧
      (∀ q, q < p → valid_proof a q s = false) ∧
      ∀ fuel q, powSearch fuel 0 a s = some q → q = p := by
  obtain ⟨p, hps⟩ := powSearch_complete (p0 + 1) 0 a s p0 hp (Nat.zero_le _) (by omega)
  obtain ⟨_, _, hv, hmin⟩ := powSearch_sound (p0 + 1) 0 a s p hps
  refine ⟨p, hps, hv, fun q hq => hmin q (Nat.zero_le _) hq, ?_⟩
  intro fuel q hq
  obtain ⟨_, _, hv2, hmin2⟩ := powSearch_sound fuel 0 a s q hq
  rcases Nat.lt_trichotomy q p with hlt | heq | hgt
  · exact absurd hv2 (by rw [hmin q (Nat.zero_le _) hlt]; simp)
  · exact heq
  · exact absurd hv (by rw [hmin2 p (Nat.zero_le _) hgt]; simp)

/-- Closed instance for the proof-of-work minimality result, at the genesis
hash of `initial 7976`, whose smallest solution is 1. -/
theorem pow_minimality_witness :
    valid_proof 100 1 h0hex = true ∧
    ∃ p, powSearch (1 + 1) 0 100 h0hex = some p ∧ valid_proof 100 p h0hex = true ∧
      (∀ q, q < p → valid_proof 100 q h0hex = false) ∧
      ∀ fuel q, powSearch fuel 0 100 h0hex = some q → q = p := by
  have h : valid_proof 100 1 h0hex = true := by decide
  exact ⟨h, pow_minimality 100 1 h0hex h⟩

theorem wMine1_eq : wMine1 = some (w1Block, w1State) := by
  have h : wMine1.isSome = true := by decide
  exact option_getD_eq wMine1 (genesisBlock, initial 7976) h

theorem w1Reach : Reachable "miner" w1State :=
  Reachable.step (initial 7976) w1State w1Block 2 0 (Reachable.init 7976) wMine1_eq

theorem w1_chain : w1State.chain = [genesisBlock, w1Block] := by
  obtain ⟨lb, hlb, hchain, _, _⟩ :=
    mine_chain (initial 7976) 2 0 "miner" w1Block w1State wMine1_eq
  rw [hchain]
  rfl

/-- C1: hash chaining — for every chain produced solely by repeated `mine`
operations from a freshly initialized ledger and every index `i > 0`, the
hash of block `i-1` (canonical sorted-key JSON through SHA-256, hex-encoded)
equals block `i`'s `previous_hash` field. -/
theorem hash_chaining (nid : String) (s : BCState) (h : Reachable nid s) :
    ∀ i : Nat, 0 < i → ∀ bi bp : Block, s.chain[i]? = some bi →
      s.chain[i - 1]? = some bp → bi.previous_hash = PrevHash.hash (hashB bp) := by
  induction h with
  | init t =>
      intro i hi bi bp hbi hbp
      have h1 : i < (initial t).chain.length := (List.getElem?_eq_some.mp hbi).1
      have h2 : (initial t).chain.length = 1 := rfl
      omega
  | step s s' b fuel t hr hm ih =>
      intro i hi bi bp hbi hbp
      obtain ⟨lb, hlb, hchain, hprev, _⟩ := mine_chain s fuel t nid b s' hm
      rw [hchain] at hbi hbp
      have hlen : i < s.chain.length + 1 := by
        have := (List.getElem?_eq_some.mp hbi).1
        simpa using this
      have hpos : 0 < s.chain.length := by
        rw [List.getLast?_eq_getElem?] at hlb
        have := (List.getElem?_eq_some.mp hlb).1
        omega
      rcases Nat.lt_or_ge i s.chain.length with hlt | hge
      · rw [List.getElem?_append_left hlt] at hbi
        rw [List.getElem?_append_left (by omega)] at hbp
        exact ih i hi bi bp hbi hbp
      · have hieq : i = s.chain.length := by omega
        subst hieq
        rw [List.getElem?_concat_length, Option.some_inj] at hbi
        rw [List.getElem?_append_left (by omega), ← List.getLast?_eq_getElem?, hlb,
          Option.some_inj] at hbp
        rw [← hbi, hprev, hbp]

/-- Closed instance for hash chaining: the two-block chain obtained by one
completed `mine` on `initial 7976`. -/
theorem hash_chaining_witness :
    (0 : Nat) < 1 ∧ w1State.chain[1]? = some w1Block ∧
      w1State.chain[0]? = some genesisBlock ∧
      w1Block.previous_hash = PrevHash.hash (hashB genesisBlock) := by
  have h1 : w1State.chain[1]? = some w1Block := by rw [w1_chain]; rfl
  have h0 : w1State.chain[0]? = some genesisBlock := by rw [w1_chain]; rfl
  exact ⟨Nat.one_pos, h1, h0,
    hash_chaining "miner" w1State w1Reach 1 Nat.one_pos w1Block genesisBlock h1 h0⟩

theorem wMine2_eq : wMine2 = some (w2Block, w2State) := by
  have h : wMine2.isSome = true := by decide
  exact option_getD_eq wMine2 (genesisBlock, sAlice) h

/-- Closed instance for pool draining: on a fresh ledger,
`submit("alice","bob",5)` returns index 2 and the subsequent `mine` forges
block 2 holding exactly the alice transaction followed by the reward
transaction, leaving the pool empty. -/
theorem pool_drain_witness :
    (new_transaction (initial 7976) "alice" "bob" 5).1 = some 2 ∧
    w2State.currentTransactions = [] ∧
    w2Block.transactions =
      [{ sender := "alice", recipient := "bob", amount := 5 },
       { sender := "0", recipient := "miner", amount := 1 }] ∧
    w2Block.index = 2 := by
  obtain ⟨hpool, htx⟩ := pool_drain sAlice 2 0 "miner" w2Block w2State wMine2_eq
  obtain ⟨lb, _, _, _, hidx⟩ := mine_chain sAlice 2 0 "miner" w2Block w2State wMine2_eq
  refine ⟨rfl, hpool, ?_, ?_⟩
  · rw [htx]; rfl
  · rw [hidx]; rfl

/-- C3 (amended): deregistering on an empty node set is always a no-op that
raises nothing — the empty-set early return precedes address parsing, so
even a malformed address does not raise there; on a non-empty set,
deregistering a well-formed address whose normalized form is not a member
raises `KeyError` (Python `set.remove`), and a malformed address raises the
invalid-address `ValueError`. -/
theorem deregister_behaviour :
    (∀ (s : BCState) (a : String), s.nodes = ∅ → deregister_node s a = .ok s) ∧
    (∀ (s : BCState) (a v : String), s.nodes ≠ ∅ → normalize a = some v →
      v ∉ s.nodes → deregister_node s a = .error .keyError) ∧
    (∀ (s : BCState) (a : String), s.nodes ≠ ∅ → normalize a = none →
      deregister_node s a = .error .valueError) :=
  ⟨fun s a h => deregister_node_empty s a h,
   fun s a v h1 h2 h3 => deregister_node_nonmember s a v h1 h2 h3,
   fun s a h1 h2 => deregister_node_malformed s a h1 h2⟩

/-- Closed instance of the deregister behaviour: the malformed empty-string
address on an empty set is a no-op, and on the set holding only `a:1` the
non-member `http://b:2` raises `KeyError` while the malformed empty string
raises `ValueError`. -/
theorem deregister_behaviour_witness :
    deregister_node emptyNodesState "" = .ok emptyNodesState ∧
    deregister_node oneNodeState "http://b:2" = .error .keyError ∧
    deregister_node oneNodeState "" = .error .valueError :=
  ⟨deregister_behaviour.1 emptyNodesState "" rfl,
   deregister_behaviour.2.1 oneNodeState "http://b:2" "b:2" (by decide) rfl (by decide),
   deregister_behaviour.2.2 oneNodeState "" (by decide) rfl⟩

/-- Counterexample to C3 as stated: deregistering the malformed empty-string
address on an empty node set raises nothing (the claim says InvalidAddress
is raised even then), and deregistering the well-formed non-member
`http://b:2` from the set holding only `a:1` raises `KeyError` (the claim
says it is an error-free no-op). -/
theorem deregister_claim_cex :
    deregister_node emptyNodesState "" = .ok emptyNodesState ∧
    deregister_node oneNodeState "http://b:2" = .error .keyError := by
  constructor
  · exact deregister_node_empty emptyNodesState "" rfl
  · exact deregister_node_nonmember oneNodeState "http://b:2" "b:2" (by decide) rfl (by decide)

/-- C9 (amended): for every node-set state and every well-formed address
whose normalized form is not already a member, `register` followed by
`deregister` with the same input restores the prior state, and registering
twice leaves the set with exactly one entry for the normalized form.  (If
the normalized form was already a member the round trip removes it instead
— see the counterexample.) -/
theorem registry_roundtrip (s : BCState) (a v : String) (hv : normalize a = some v)
    (hnm : v ∉ s.nodes) :
    (∃ s1, register_node s a = .ok s1 ∧ deregister_node s1 a = .ok s) ∧
    (∃ s1, register_node s a = .ok s1 ∧ register_node s1 a = .ok s1 ∧
      (s1.nodes.filter (fun x => x = v)).card = 1) := by
  obtain ⟨ch, tx, nd⟩ := s
  dsimp only at hnm
  refine ⟨⟨_, register_node_eq _ a v hv, ?_⟩, ⟨_, register_node_eq _ a v hv, ?_, ?_⟩⟩
  · rw [deregister_node_member _ a v (by simp [Finset.insert_ne_empty]) hv
      (Finset.mem_insert_self v nd)]
    dsimp only
    rw [Finset.erase_insert hnm]
  · rw [register_node_eq _ a v hv]
    dsimp only
    rw [Finset.insert_idem]
  · dsimp only
    rw [Finset.filter_insert]
    simp [Finset.filter_eq', hnm]

/-- Closed instance of the registry round trip at the address
`http://192.168.0.10:5005` (normalized to its netloc) on an empty set. -/
theorem registry_roundtrip_witness :
    (∃ s1, register_node emptyNodesState "http://192.168.0.10:5005" = .ok s1 ∧
      deregister_node s1 "http://192.168.0.10:5005" = .ok emptyNodesState) ∧
    (∃ s1, register_node emptyNodesState "http://192.168.0.10:5005" = .ok s1 ∧
      register_node s1 "http://192.168.0.10:5005" = .ok s1 ∧
      (s1.nodes.filter (fun x => x = "192.168.0.10:5005")).card = 1) :=
  registry_roundtrip emptyNodesState "http://192.168.0.10:5005" "192.168.0.10:5005"
    rfl (by decide)

/-- Counterexample to C9 as stated: when the normalized address `b:2` is
already a member, `register` leaves the set unchanged but the following
`deregister` removes the entry, so the round trip does not restore the
prior state. -/
theorem registry_roundtrip_cex :
    register_node bNodeState "http://b:2" = .ok bNodeState ∧
    deregister_node bNodeState "http://b:2" = .ok { bNodeState with nodes := ∅ } ∧
    ({ bNodeState with nodes := ∅ } : BCState) ≠ bNodeState := by
  refine ⟨?_, ?_, by decide⟩
  · rw [register_node_eq bNodeState "http://b:2" "b:2" rfl]
    have h : insert "b:2" bNodeState.nodes = bNodeState.nodes := by decide
    rw [h]
  · rw [deregister_node_member bNodeState "http://b:2" "b:2" (by decide) rfl (by decide)]
    have h : bNodeState.nodes.erase "b:2" = (∅ : Finset String) := by decide
    rw [h]

/-- C2 (amended): `resolve_conflicts` replaces the local chain iff some peer
responds with status 200, a reported length strictly above the local chain
length, and a chain the validator accepts — stated here under the proviso
that every fetch returns a response carrying a non-empty chain, since a
network error or an empty candidate aborts resolution instead (see the
error-handling results); otherwise the state is returned untouched.  The
adopted chain is exactly one of the qualifying reported chains, and when
every reported length is truthful the local chain length strictly
increases; an append via `new_block` grows the chain by exactly 1. -/
theorem resolve_monotonicity (fetch : String → FetchResult) (peers : List String)
    (s : BCState) (hmem : ∀ n, n ∈ peers ↔ n ∈ s.nodes) (hg : goodFetch fetch peers) :
    ((∃ s', resolve_conflicts fetch peers s = .ok (true, s')) ↔
      ∃ n ∈ s.nodes, qualifies fetch (s.chain.length : Int) n) ∧
    ((¬ ∃ n ∈ s.nodes, qualifies fetch (s.chain.length : Int) n) →
      resolve_conflicts fetch peers s = .ok (false, s)) ∧
    (∀ s', resolve_conflicts fetch peers s = .ok (true, s') →
      (∃ n ∈ s.nodes, ∃ ln, fetch n = .response 200 ln s'.chain ∧
        (s.chain.length : Int) < ln ∧ valid_chain s'.chain = some true) ∧
      s'.currentTransactions = s.currentTransactions ∧ s'.nodes = s.nodes ∧
      ((∀ m st ln ch, fetch m = .response st ln ch → ln = (ch.length : Int)) →
        s.chain.length < s'.chain.length)) ∧
    (∀ (proof : Nat) (ph : PrevHash) (t : Nat),
      ((new_block s proof ph t).2).chain.length = s.chain.length + 1) := by
  have horigin : ∀ c, resolveAux fetch peers (s.chain.length : Int) none = .ok (some c) →
      ∃ n ∈ s.nodes, ∃ ln, fetch n = .response 200 ln c ∧
        (s.chain.length : Int) < ln ∧ valid_chain c = some true := by
    intro c hc
    rcases resolveAux_some_origin fetch peers (s.chain.length : Int)
        (s.chain.length : Int) none c (le_refl _) hc with heq | ⟨n, hn, w⟩
    · exact absurd heq (by simp)
    · exact ⟨n, (hmem n).mp hn, w⟩
  refine ⟨⟨?_, ?_⟩, ?_, ?_, ?_⟩
  · rintro ⟨s', hs'⟩
    unfold resolve_conflicts at hs'
    rcases hr : resolveAux fetch peers (s.chain.length : Int) none
      with e | o <;> rw [hr] at hs'
    · exact absurd hs' (by simp)
    · rcases o with _ | c
      · exact absurd hs' (by simp)
      · dsimp only at hs'
        by_cases hce : c.isEmpty = true
        · rw [if_pos hce] at hs'
          exact absurd hs' (by simp)
        · obtain ⟨n, hn, ln, hf, hln, hvc⟩ := horigin c hr
          exact ⟨n, hn, ln, c, hf, hln, hvc⟩
  · rintro ⟨n, hn, hq⟩
    obtain ⟨c, hc⟩ := resolveAux_some_of_qual fetch peers _ hg ⟨n, (hmem n).mpr hn, hq⟩
    obtain ⟨m, hm, ln, hf, hln, hvc⟩ := horigin c hc
    have hcne : c ≠ [] := by
      intro h
      rw [h] at hvc
      exact absurd hvc (by simp [valid_chain])
    refine ⟨{ s with chain := c }, ?_⟩
    unfold resolve_conflicts
    rw [hc]
    dsimp only
    rw [if_neg (by simpa using hcne)]
  · intro hnq
    have hnone : ∀ n ∈ peers, ¬ qualifies fetch (s.chain.length : Int) n :=
      fun n hn hq => hnq ⟨n, (hmem n).mp hn, hq⟩
    unfold resolve_conflicts
    rw [resolveAux_none_of_no_qual fetch _ _ hg hnone]
  · intro s' hs'
    unfold resolve_conflicts at hs'
    rcases hr : resolveAux fetch peers (s.chain.length : Int) none
      with e | o <;> rw [hr] at hs'
    · exact absurd hs' (by simp)
    · rcases o with _ | c
      · exact absurd hs' (by simp)
      · dsimp only at hs'
        by_cases hce : c.isEmpty = true
        · rw [if_pos hce] at hs'
          exact absurd hs' (by simp)
        · rw [if_neg hce, Except.ok.injEq, Prod.mk.injEq] at hs'
          obtain ⟨-, hs2⟩ := hs'
          subst hs2
          obtain ⟨n, hn, ln, hf, hln, hvc⟩ := horigin c hr
          refine ⟨⟨n, hn, ln, hf, hln, hvc⟩, rfl, rfl, ?_⟩
          intro htr
          have := htr n 200 ln c hf
          subst this
          exact_mod_cast hln
  · intro proof ph t
    simp [new_block]

/-- Closed instance for resolution: one peer reporting status 200, length 3
and a valid single-block chain makes `resolve_conflicts` on a fresh one-peer
ledger replace the chain. -/
theorem resolve_monotonicity_witness :
    ∃ s', resolve_conflicts (fun _ => FetchResult.response 200 3 [cexBlock]) ["peer"]
      peerState = .ok (true, s') := by
  have hmem : ∀ n, n ∈ ["peer"] ↔ n ∈ peerState.nodes := by
    intro n
    simp [peerState, initial, new_block]
  have hg : goodFetch (fun _ => FetchResult.response 200 3 [cexBlock]) ["peer"] :=
    fun n _ => ⟨200, 3, [cexBlock], rfl, by simp⟩
  exact (resolve_monotonicity _ ["peer"] peerState hmem hg).1.mpr
    ⟨"peer", by decide, 3, [cexBlock], rfl, by decide, rfl⟩

/-- Counterexample to C2 as stated: a peer that reports length 3 but
delivers a valid single-block chain causes replacement of a local chain of
the same length 1, so a replacement happened although no peer delivered a
chain longer than the local one — the chain length did not increase. -/
theorem resolve_monotonicity_cex :
    resolve_conflicts (fun _ => FetchResult.response 200 3 [cexBlock]) ["peer"] peerState =
      .ok (true, { peerState with chain := [cexBlock] }) ∧
    ¬ peerState.chain.length < [cexBlock].length := by
  constructor
  · rfl
  · decide

/-- C4 (amended): during resolution a peer answering with a non-success
status is skipped and the loop continues over the remaining peers with its
state unchanged; but a peer fetch raising a network error is not caught —
it aborts the whole resolution at that peer with the error surfacing. -/
theorem peer_failure_handling (fetch : String → FetchResult) (n : String)
    (rest : List String) (maxLen : Int) (best : Option (List Block)) :
    (∀ st ln ch, fetch n = .response st ln ch → st ≠ 200 →
      resolveAux fetch (n :: rest) maxLen best = resolveAux fetch rest maxLen best) ∧
    (fetch n = .netError → resolveAux fetch (n :: rest) maxLen best = .error .netError) := by
  constructor
  · intro st ln ch hf hst
    rw [resolveAux, hf]
    dsimp only
    rw [if_neg (by simp [hst])]
  · intro hf
    rw [resolveAux, hf]

/-- Closed instance of peer-failure handling: an unreachable peer aborts the
loop with the network error, and a 404 peer is skipped. -/
theorem peer_failure_handling_witness :
    resolveAux (fun _ => FetchResult.netError) ["p"] 1 none = .error .netError ∧
    resolveAux (fun _ => FetchResult.response 404 9 []) ["p"] 1 none =
      resolveAux (fun _ => FetchResult.response 404 9 []) [] 1 none :=
  ⟨(peer_failure_handling _ "p" [] 1 none).2 rfl,
   (peer_failure_handling _ "p" [] 1 none).1 404 9 [] rfl (by decide)⟩

/-- Counterexample to C4 as stated: with a single unreachable peer the
network error escapes `resolve_conflicts` — the failure aborts resolution
and surfaces to the caller as an error instead of the peer being skipped. -/
theorem peer_failure_cex :
    resolve_conflicts (fun _ => FetchResult.netError) ["peer"] peerState =
      .error .netError := by
  rfl

/-- C10: the chain validator reads element 0 before any length check, so it
is defined only on non-empty chains: the empty chain makes it raise
(`none`, the IndexError) while every non-empty chain receives a verdict;
and through `resolve_conflicts`, a peer reporting status 200 and length 5
with an empty chain list turns into that uncaught IndexError aborting the
whole resolution rather than the candidate being rejected or skipped. -/
theorem valid_chain_empty_crash :
    valid_chain ([] : List Block) = none ∧
    (∀ (b : Block) (rest : List Block), (valid_chain (b :: rest)).isSome = true) ∧
    resolve_conflicts (fun _ => FetchResult.response 200 5 []) ["peer"] peerState =
      .error .indexError := by
  refine ⟨rfl, fun b rest => rfl, ?_⟩
  rfl

end Blockchain

